import Mathlib

/-!
Verification of the DXFAutoJoin geometry core (`DXFAutoJoin.py`).

Coordinates are embedded as rationals (`ℚ`).  The source compares Euclidean
distances (`math.hypot`) against thresholds; since `hypot p q ≤ t ↔
sqDist p q ≤ t²` and `hypot p q < t ↔ sqDist p q < t²` for `0 ≤ t`, every
distance *comparison* in the source is embedded as the corresponding
comparison of the squared distance `sqDist` against the squared threshold.
Where the source uses the *value* of a distance (the arc-radius average in
`unify_endpoints`) or an `atan2`-derived angle, the embedding abstracts the
irrational function as an explicit parameter (`dist2d`, `angleOf`) and the
theorems quantify over it.
-/

/-- A 2D point, as in the `(x, y)` coordinate tuples of the source. -/
abbrev Point : Type := ℚ × ℚ

/-- Squared Euclidean distance.  Embeds `distance_2d(p1, p2)` for the purpose
of threshold comparisons (see the file docstring). -/
def sqDist (p1 p2 : Point) : ℚ :=
  (p2.1 - p1.1) ^ 2 + (p2.2 - p1.2) ^ 2

theorem sqDist_comm (p q : Point) : sqDist p q = sqDist q p := by
  unfold sqDist; ring

theorem sqDist_self (p : Point) : sqDist p p = 0 := by
  unfold sqDist; ring

theorem sqDist_nonneg (p q : Point) : 0 ≤ sqDist p q := by
  unfold sqDist; positivity

/-- An edge of a polygon approximation: the `{"start": .., "end": ..}`
dictionaries iterated by `is_point_in_polygon` (the `handle` field is not
consulted by the geometric code and is modelled separately where needed). -/
structure Edge where
  start : Point
  stop : Point
deriving DecidableEq

/-- Python `a % 360.0` (floored modulus, result in `[0, 360)`), as used by
`normalize_arc_angles`. -/
def fmod360 (a : ℚ) : ℚ := a - 360 * ⌊a / 360⌋

/-- Embedding of `normalize_arc_angles(start_angle, end_angle)`:
returns `(s, e, sweep)` with `s = start_angle % 360`, `e = end_angle % 360`,
adding `360` to `e` when the raw sweep `e - s` is negative. -/
def normalize_arc_angles (start_angle end_angle : ℚ) : ℚ × ℚ × ℚ :=
  let s := fmod360 start_angle
  let e := fmod360 end_angle
  let sweep := e - s
  if sweep < 0 then (s, e + 360, (e + 360) - s) else (s, e, sweep)

/-- One iteration of the edge loop of `is_point_in_polygon`: toggle `inside`
when the edge's Y-range straddles the point's Y and the ray-edge
intersection lies strictly to the right of the point. -/
def edgeStep (point : Point) (inside : Bool) (edge : Edge) : Bool :=
  let x := point.1
  let y := point.2
  let x1 := edge.start.1
  let y1 := edge.start.2
  let x2 := edge.stop.1
  let y2 := edge.stop.2
  if (y1 > y) ≠ (y2 > y) then
    let x_intersect := x1 + (y - y1) * (x2 - x1) / (y2 - y1)
    if x < x_intersect then !inside else inside
  else inside

/-- Embedding of `is_point_in_polygon(point, polygon)`: ray-casting parity
over the polygon's edges, starting from `inside = False`. -/
def is_point_in_polygon (point : Point) (polygon : List Edge) : Bool :=
  polygon.foldl (edgeStep point) false

/-- The closed square with corners (0,0), (10,0), (10,10), (0,10), given as
four edges (the test polygon of the spec's ray-casting property). -/
def squareTen : List Edge :=
  [⟨(0, 0), (10, 0)⟩, ⟨(10, 0), (10, 10)⟩, ⟨(10, 10), (0, 10)⟩, ⟨(0, 10), (0, 0)⟩]

/-- Value of the digit string built by `int(''.join(re.findall(r'\d+', s)))`:
joining all digit runs of `s` concatenates exactly the digit characters of
`s` in order. -/
def digitsToNat (ds : List Char) : ℕ :=
  ds.foldl (fun n c => 10 * n + (c.toNat - '0'.toNat)) 0

/-- Embedding of `extract_numeric_layer_name(layer_name)`: the integer formed
by all digit characters of the name in order, `0` when there are none. -/
def extract_numeric_layer_name (layer_name : String) : ℕ :=
  let digits := layer_name.data.filter Char.isDigit
  if digits = [] then 0 else digitsToNat digits

/-- The draw-order priority assigned in step 9 of `unify_to_layers_in_place`:
`10000 - extract_numeric_layer_name(entity.dxf.layer)`. -/
def drawOrderPriority (layer : String) : ℤ :=
  10000 - extract_numeric_layer_name layer

/-- Modelled from the spec: the "numeric suffix extracted from its layer
label" — the maximal trailing run of digit characters of the label, absent
when the label does not end in a digit. -/
def numericSuffix (layer : String) : Option ℕ :=
  let ds := (layer.data.reverse.takeWhile Char.isDigit).reverse
  if ds = [] then none else some (digitsToNat ds)

/-- Modelled from the spec: draw-order priority as the spec's words describe
it — `10000` minus the numeric suffix of the label, defaulting to `10000`
when there is none. -/
def numericSuffixPriority (layer : String) : ℤ :=
  match numericSuffix layer with
  | none => 10000
  | some k => 10000 - k

theorem fmod360_nonneg (a : ℚ) : 0 ≤ fmod360 a := by
  have h1 : (⌊a / 360⌋ : ℚ) ≤ a / 360 := Int.floor_le _
  have h2 : 360 * (⌊a / 360⌋ : ℚ) ≤ 360 * (a / 360) := by
    exact mul_le_mul_of_nonneg_left h1 (by norm_num)
  have h3 : 360 * (a / 360) = a := by
    field_simp
  unfold fmod360
  linarith

theorem fmod360_lt (a : ℚ) : fmod360 a < 360 := by
  have h1 : a / 360 < (⌊a / 360⌋ : ℚ) + 1 := Int.lt_floor_add_one _
  have h2 : 360 * (a / 360) < 360 * ((⌊a / 360⌋ : ℚ) + 1) := by
    exact mul_lt_mul_of_pos_left h1 (by norm_num)
  have h3 : 360 * (a / 360) = a := by
    field_simp
  unfold fmod360
  linarith

/-- C7: `normalize_arc_angles` returns a start angle in `[0, 360)`, an end
angle at least the start angle, and a nonnegative sweep equal to
`end - start`; moreover `(350, 10)` normalizes to `(350, 370, 20)`. -/
theorem normalize_arc_angles_spec (sa ea : ℚ) :
    0 ≤ (normalize_arc_angles sa ea).1 ∧
    (normalize_arc_angles sa ea).1 < 360 ∧
    (normalize_arc_angles sa ea).1 ≤ (normalize_arc_angles sa ea).2.1 ∧
    (normalize_arc_angles sa ea).2.2 =
      (normalize_arc_angles sa ea).2.1 - (normalize_arc_angles sa ea).1 ∧
    0 ≤ (normalize_arc_angles sa ea).2.2 ∧
    normalize_arc_angles 350 10 = (350, 370, 20) := by
  have hs0 := fmod360_nonneg sa
  have hs1 := fmod360_lt sa
  have he0 := fmod360_nonneg ea
  have he1 := fmod360_lt ea
  have hconc : normalize_arc_angles 350 10 = (350, 370, 20) := by
    unfold normalize_arc_angles fmod360
    norm_num
  unfold normalize_arc_angles
  by_cases h : fmod360 ea - fmod360 sa < 0
  · simp only [h, if_true]
    refine ⟨hs0, hs1, by linarith, by ring_nf, by linarith, hconc⟩
  · simp only [h, if_false]
    push_neg at h
    refine ⟨hs0, hs1, by linarith, by ring_nf, by linarith, hconc⟩

/-- C5: on the closed 10×10 square, the ray-casting test reports (5,5)
inside and (15,5) outside. -/
theorem ray_casting_square :
    is_point_in_polygon (5, 5) squareTen = true ∧
    is_point_in_polygon (15, 5) squareTen = false := by
  constructor <;> norm_num [is_point_in_polygon, squareTen, edgeStep]

/-- C9: whenever the straddle test of `edgeStep` holds, the divisor
`y2 - y1` of the intersection formula is nonzero (the division-by-zero
branch is unreachable); and a horizontal edge (equal endpoint Y) never
changes the parity accumulator. -/
theorem ray_casting_no_div_zero :
    (∀ (y : ℚ) (edge : Edge),
        ((edge.start.2 > y) ≠ (edge.stop.2 > y)) → edge.stop.2 - edge.start.2 ≠ 0) ∧
    (∀ (point : Point) (inside : Bool) (edge : Edge),
        edge.start.2 = edge.stop.2 → edgeStep point inside edge = inside) := by
  constructor
  · intro y edge hne hzero
    have heq : edge.start.2 = edge.stop.2 := by linarith [sub_eq_zero.mp hzero]
    rw [heq] at hne
    exact hne rfl
  · intro point inside edge heq
    unfold edgeStep
    have : ¬ ((edge.start.2 > point.2) ≠ (edge.stop.2 > point.2)) := by
      rw [heq]
      simp
    simp only [this, if_false]

/-- Witness for C9 at a vertical edge and a horizontal edge. -/
theorem ray_casting_no_div_zero_witness :
    ((1 : ℚ) - (-1) ≠ 0) ∧ edgeStep (0, 0) false ⟨(0, 3), (5, 3)⟩ = false := by
  constructor
  · exact ray_casting_no_div_zero.1 0 ⟨(0, -1), (0, 1)⟩ (by norm_num)
  · exact ray_casting_no_div_zero.2 (0, 0) false ⟨(0, 3), (5, 3)⟩ rfl

/-- C8 counterexample: on the layer label "Part 1 - Contained" (a label this
program itself generates), the code's priority is 9999, while
`10000 - numeric-suffix-of-label` with the no-suffix default is 10000. -/
theorem draw_priority_suffix_counterexample :
    drawOrderPriority "Part 1 - Contained" ≠
      numericSuffixPriority "Part 1 - Contained" := by
  decide

/-- C8 (amended): the draw-order priority equals `10000` minus the integer
formed by concatenating all digit characters of the layer label in order,
and equals `10000` when the label contains no digit. -/
theorem draw_priority_eq (layer : String) :
    drawOrderPriority layer =
      10000 - (digitsToNat (layer.data.filter Char.isDigit) : ℤ) ∧
    (layer.data.filter Char.isDigit = [] → drawOrderPriority layer = 10000) := by
  constructor
  · unfold drawOrderPriority extract_numeric_layer_name
    by_cases h : layer.data.filter Char.isDigit = []
    · simp [h, digitsToNat]
    · simp [h]
  · intro h
    unfold drawOrderPriority extract_numeric_layer_name
    simp [h]

/-- Witness for C8 on the digit-free label "Individual Circles". -/
theorem draw_priority_eq_witness :
    drawOrderPriority "Individual Circles" = 10000 := by
  exact (draw_priority_eq "Individual Circles").2 (by decide)

/-! ## Circle classification (step 8 of `unify_to_layers_in_place`)

Each polygon approximation is paired with the layer of its wrapping entity:
the result of `doc_in.entitydb.get(polygon[0]["handle"]).dxf.layer`
(`none` models a missing entity, in which case the source leaves
`circle_layer_name` unchanged and still breaks). -/

/-- First polygon (in iteration order) whose approximation contains the
point, with its wrapping-entity layer; models the inner `for polygon,
layer_name in polygons` loop with `break`. -/
def findContaining (polygons : List (List Edge × Option String)) (center : Point) :
    Option (List Edge × Option String) :=
  polygons.find? (fun pg => is_point_in_polygon center pg.1)

/-- One iteration of the circle loop: the running `circle_layer_name` is
carried in the state and assigned to each circle; it is only ever replaced,
never reset to "Individual Circles". -/
def classifyStep (polygons : List (List Edge × Option String))
    (st : String × List String) (center : Point) : String × List String :=
  let name :=
    match findContaining polygons center with
    | some (_, some layer) => layer ++ " - Contained"
    | some (_, none) => st.1
    | none => st.1
  (name, st.2 ++ [name])

/-- Layers assigned to the circles (given by their centers), in order. -/
def classifyCircles (polygons : List (List Edge × Option String))
    (centers : List Point) : List String :=
  (centers.foldl (classifyStep polygons) ("Individual Circles", [])).2

/-- C4: with one group polygon (the 10×10 square, wrapping layer "Part 1")
and two circles, the first centered at (5,5) inside the square and the
second at (100,100) inside no polygon, the code assigns the *second* circle
the stale layer "Part 1 - Contained" instead of "Individual Circles". -/
theorem circle_default_layer_bug :
    classifyCircles [(squareTen, some "Part 1")] [(5, 5), (100, 100)] =
      ["Part 1 - Contained", "Part 1 - Contained"] ∧
    is_point_in_polygon (100, 100) squareTen = false := by
  constructor
  · norm_num [classifyCircles, classifyStep, findContaining, squareTen,
      is_point_in_polygon, edgeStep]
    decide
  · norm_num [is_point_in_polygon, squareTen, edgeStep]

/-! ## Endpoint unification (`unify_endpoints`) -/

/-- Entity payload: a LINE has no extra fields; an ARC carries center,
radius and normalized start/end angles. -/
inductive EntityData where
  | line : EntityData
  | arc (center : Point) (radius : ℚ) (start_angle : ℚ) (end_angle : ℚ) : EntityData
deriving DecidableEq

/-- The uniform entity record built by `extract_entities`: endpoints, a
handle, and the type-specific payload. -/
structure Entity where
  start : Point
  stop : Point
  handle : ℕ
  data : EntityData
deriving DecidableEq

instance : Inhabited Entity := ⟨⟨(0, 0), (0, 0), 0, .line⟩⟩

/-- The `all_pts` list of `unify_endpoints`: every start then end, in entity
order. -/
def allPts (entities : List Entity) : List Point :=
  entities.flatMap (fun e => [e.start, e.stop])

/-- One iteration of the merge loop of `unify_endpoints`: find the first
already-merged representative within tolerance (squared comparison, see
the file docstring), map `p` to it; otherwise append `p` as a new
representative mapping to itself.  The dict `point_map` is modelled as a
function updated at key `p` (last write wins, as for a Python dict). -/
def mergeStep (tolerance : ℚ) (st : List Point × (Point → Point)) (p : Point) :
    List Point × (Point → Point) :=
  match st.1.find? (fun mp => decide (sqDist p mp ≤ tolerance ^ 2)) with
  | some mp => (st.1, fun q => if q = p then mp else st.2 q)
  | none => (st.1 ++ [p], fun q => if q = p then p else st.2 q)

/-- The merge phase of `unify_endpoints`: fold over the gathered points,
returning the `merged` representative list and the point map.  The map is
initialized to the identity; the source only ever reads it at gathered
points, all of which are written. -/
def mergePoints (tolerance : ℚ) (pts : List Point) : List Point × (Point → Point) :=
  pts.foldl (mergeStep tolerance) ([], id)

/-- The update phase of `unify_endpoints` for one entity: remap both
endpoints; for an arc, recompute the radius as the average of the two
center-to-endpoint distances and the angles from the remapped endpoints,
re-normalized.  `dist2d` and `angleOf` abstract the irrational
`distance_2d` and `angle_of_point` (see the file docstring). -/
def updateEntity (dist2d : Point → Point → ℚ) (angleOf : Point → Point → ℚ)
    (pmap : Point → Point) (e : Entity) : Entity :=
  let s_new := pmap e.start
  let e_new := pmap e.stop
  match e.data with
  | .line => { e with start := s_new, stop := e_new }
  | .arc c _ _ _ =>
      let r_avg := (dist2d c s_new + dist2d c e_new) / 2
      let n := normalize_arc_angles (angleOf c s_new) (angleOf c e_new)
      { start := s_new, stop := e_new, handle := e.handle,
        data := .arc c r_avg n.1 n.2.1 }

/-- Embedding of `unify_endpoints(entities, tolerance)`: build the point map
from the gathered endpoints, then update every entity. -/
def unify_endpoints (dist2d angleOf : Point → Point → ℚ)
    (entities : List Entity) (tolerance : ℚ) : List Entity :=
  entities.map
    (updateEntity dist2d angleOf (mergePoints tolerance (allPts entities)).2)

/-- Generic foldl invariant principle. -/
theorem foldl_invariant {α β : Type} (f : β → α → β) (P : β → Prop)
    (l : List α) (init : β) (h0 : P init)
    (hstep : ∀ st a, a ∈ l → P st → P (f st a)) : P (l.foldl f init) := by
  induction l generalizing init with
  | nil => exact h0
  | cons a t ih =>
      exact ih (f init a) (hstep init a (List.mem_cons_self a t) h0)
        (fun st b hb => hstep st b (List.mem_cons_of_mem a hb))

/-- Generic foldl principle for per-element postconditions that are
established when the element is processed and preserved by later steps. -/
theorem foldl_establish {α β : Type} (f : β → α → β) (P : α → β → Prop)
    (hest : ∀ st a, P a (f st a))
    (hpres : ∀ st a b, P a st → P a (f st b)) :
    ∀ (l : List α) (init : β) (a : α), a ∈ l → P a (l.foldl f init) := by
  intro l
  induction l with
  | nil => intro init a ha; cases ha
  | cons b t ih =>
      intro init a ha
      rcases List.mem_cons.mp ha with rfl | ha
      · have h1 : P a (f init a) := hest init a
        have : ∀ (t' : List α) st, P a st → P a (t'.foldl f st) := by
          intro t'
          induction t' with
          | nil => intro st h; exact h
          | cons c t'' ih2 => intro st h; exact ih2 (f st c) (hpres st a c h)
        exact this t (f init a) h1
      · exact ih (f init b) a ha

/-- A representative appended later is strictly farther than the tolerance
from every earlier representative: when it was appended, `find?` over the
earlier ones failed. -/
theorem mergePoints_pairwise (tolerance : ℚ) (pts : List Point) :
    (mergePoints tolerance pts).1.Pairwise
      (fun a b => ¬ sqDist b a ≤ tolerance ^ 2) := by
  unfold mergePoints
  refine foldl_invariant (mergeStep tolerance)
    (fun st => st.1.Pairwise (fun a b => ¬ sqDist b a ≤ tolerance ^ 2))
    pts ([], id) List.Pairwise.nil ?_
  intro st p _ hP
  unfold mergeStep
  cases hfind : st.1.find? (fun mp => decide (sqDist p mp ≤ tolerance ^ 2)) with
  | some mp => exact hP
  | none =>
      simp only
      rw [List.pairwise_append]
      refine ⟨hP, List.pairwise_singleton _ _, ?_⟩
      intro a ha b hb
      rw [List.mem_singleton] at hb
      subst hb
      have := List.find?_eq_none.mp hfind a ha
      simpa using this

/-- Symmetrized separation of the merged representatives. -/
theorem mergePoints_sep (tolerance : ℚ) (pts : List Point) :
    ∀ a ∈ (mergePoints tolerance pts).1, ∀ b ∈ (mergePoints tolerance pts).1,
      a ≠ b → ¬ sqDist a b ≤ tolerance ^ 2 := by
  have hp2 : (mergePoints tolerance pts).1.Pairwise
      (fun a b => a ≠ b → ¬ sqDist a b ≤ tolerance ^ 2) := by
    refine (mergePoints_pairwise tolerance pts).imp ?_
    intro a b h _
    rw [sqDist_comm]
    exact h
  intro a ha b hb hne
  have hsym : Symmetric (fun a b : Point => a ≠ b → ¬ sqDist a b ≤ tolerance ^ 2) := by
    intro a b h hba
    rw [sqDist_comm]
    exact h (Ne.symm hba)
  exact List.Pairwise.forall hsym hp2 ha hb hne hne

/-- Every gathered point is mapped to one of the merged representatives. -/
theorem mergePoints_map_mem (tolerance : ℚ) (pts : List Point) :
    ∀ p ∈ pts, (mergePoints tolerance pts).2 p ∈ (mergePoints tolerance pts).1 := by
  intro p hp
  unfold mergePoints
  refine foldl_establish (mergeStep tolerance) (fun a st => st.2 a ∈ st.1)
    ?_ ?_ pts ([], id) p hp
  · intro st a
    unfold mergeStep
    cases hfind : st.1.find? (fun mp => decide (sqDist a mp ≤ tolerance ^ 2)) with
    | some mp =>
        simp only [if_pos rfl]
        exact List.mem_of_find?_eq_some hfind
    | none =>
        simp only [if_pos rfl, List.mem_append, List.mem_singleton]
        right
        rfl
  · intro st a b hmem
    unfold mergeStep
    cases hfind : st.1.find? (fun mp => decide (sqDist b mp ≤ tolerance ^ 2)) with
    | some mp =>
        by_cases hab : a = b
        · subst hab
          simp only [if_pos rfl]
          exact List.mem_of_find?_eq_some hfind
        · simp only [if_neg hab]
          exact hmem
    | none =>
        by_cases hab : a = b
        · subst hab
          simp only [if_pos rfl, List.mem_append, List.mem_singleton]
          right
          rfl
        · simp only [if_neg hab, List.mem_append]
          left
          exact hmem

/-- When every input point already belongs to a family `S` of points that are
pairwise farther apart than the tolerance, the merge map is the identity:
each point can only match itself. -/
theorem mergePoints_id (tolerance : ℚ) (S : List Point) (pts : List Point)
    (hmem : ∀ p ∈ pts, p ∈ S)
    (hsep : ∀ a ∈ S, ∀ b ∈ S, a ≠ b → ¬ sqDist a b ≤ tolerance ^ 2) :
    ∀ q, (mergePoints tolerance pts).2 q = q := by
  unfold mergePoints
  have h := foldl_invariant (mergeStep tolerance)
    (fun st => (∀ m ∈ st.1, m ∈ S) ∧ (∀ q, st.2 q = q)) pts ([], id)
    ⟨by simp, fun q => rfl⟩ ?_
  · exact h.2
  · intro st a hain hP
    obtain ⟨h1, h2⟩ := hP
    unfold mergeStep
    cases hfind : st.1.find? (fun mp => decide (sqDist a mp ≤ tolerance ^ 2)) with
    | some mp =>
        have hmp : mp ∈ st.1 := List.mem_of_find?_eq_some hfind
        have hle : sqDist a mp ≤ tolerance ^ 2 := by
          simpa using List.find?_some hfind
        have hma : mp = a := by
          by_contra hne
          exact hsep a (hmem a hain) mp (h1 mp hmp) (fun hx => hne hx.symm) hle
        subst hma
        refine ⟨h1, ?_⟩
        intro q
        by_cases hq : q = mp
        · subst hq
          simp
        · simp [hq, h2 q]
    | none =>
        refine ⟨?_, ?_⟩
        · intro m hm
          rcases List.mem_append.mp hm with hm | hm
          · exact h1 m hm
          · rw [List.mem_singleton] at hm
            subst hm
            exact hmem m hain
        · intro q
          by_cases hq : q = a
          · simp [hq]
          · simp [hq, h2 q]

/-- The two endpoints of an updated entity are the images of the original
endpoints under the point map, for lines and arcs alike. -/
theorem updateEntity_endpoints (dist2d angleOf : Point → Point → ℚ)
    (pmap : Point → Point) (e : Entity) :
    (updateEntity dist2d angleOf pmap e).start = pmap e.start ∧
    (updateEntity dist2d angleOf pmap e).stop = pmap e.stop := by
  cases e with
  | mk s t h dt => cases dt <;> simp [updateEntity]

/-- The endpoints gathered from a unified entity list are the images of the
originally gathered endpoints under the merge map. -/
theorem allPts_unify (dist2d angleOf : Point → Point → ℚ)
    (entities : List Entity) (tolerance : ℚ) :
    allPts (unify_endpoints dist2d angleOf entities tolerance) =
      (allPts entities).map ((mergePoints tolerance (allPts entities)).2) := by
  unfold unify_endpoints allPts
  rw [List.flatMap_map, List.map_flatMap]
  congr 1
  funext e
  obtain ⟨h1, h2⟩ := updateEntity_endpoints dist2d angleOf
    (mergePoints tolerance (entities.flatMap fun e => [e.start, e.stop])).2 e
  simp [h1, h2]

/-- Re-updating an already-updated entity with an identity point map changes
nothing: the arc radius and angles are recomputed from the same center and
endpoints, yielding the same values. -/
theorem updateEntity_update (dist2d angleOf : Point → Point → ℚ)
    (g f : Point → Point) (e : Entity) (hg : ∀ x, g x = x) :
    updateEntity dist2d angleOf g (updateEntity dist2d angleOf f e) =
      updateEntity dist2d angleOf f e := by
  cases e with
  | mk s t h dt => cases dt <;> simp [updateEntity, hg]

/-- C3: applying `unify_endpoints` a second time with the same tolerance to
its own output changes no coordinate and no arc radius or angle, for every
abstract distance and angle function: the output entity list is a fixed
point. -/
theorem unify_endpoints_idempotent (dist2d angleOf : Point → Point → ℚ)
    (entities : List Entity) (tolerance : ℚ) (htol : 0 ≤ tolerance) :
    unify_endpoints dist2d angleOf
        (unify_endpoints dist2d angleOf entities tolerance) tolerance =
      unify_endpoints dist2d angleOf entities tolerance := by
  have hpts : ∀ q ∈ allPts (unify_endpoints dist2d angleOf entities tolerance),
      q ∈ (mergePoints tolerance (allPts entities)).1 := by
    rw [allPts_unify]
    intro q hq
    rcases List.mem_map.mp hq with ⟨p, hp, rfl⟩
    exact mergePoints_map_mem tolerance (allPts entities) p hp
  have hid : ∀ q,
      (mergePoints tolerance
        (allPts (unify_endpoints dist2d angleOf entities tolerance))).2 q = q :=
    mergePoints_id tolerance (mergePoints tolerance (allPts entities)).1 _
      hpts (mergePoints_sep tolerance (allPts entities))
  unfold unify_endpoints at hid ⊢
  rw [List.map_map]
  refine List.map_congr_left ?_
  intro e _
  show updateEntity dist2d angleOf _ (updateEntity dist2d angleOf _ e) =
    updateEntity dist2d angleOf _ e
  exact updateEntity_update dist2d angleOf _ _ e hid

/-- Witness for C3 on a one-line entity list with tolerance 1. -/
theorem unify_endpoints_idempotent_witness :
    unify_endpoints (fun _ _ => 0) (fun _ _ => 0)
        (unify_endpoints (fun _ _ => 0) (fun _ _ => 0)
          [⟨(0, 0), (1, 0), 0, .line⟩] 1) 1 =
      unify_endpoints (fun _ _ => 0) (fun _ _ => 0)
        [⟨(0, 0), (1, 0), 0, .line⟩] 1 :=
  unify_endpoints_idempotent (fun _ _ => 0) (fun _ _ => 0)
    [⟨(0, 0), (1, 0), 0, .line⟩] 1 (by norm_num)

/-- Both endpoints of a member entity occur among the gathered points. -/
theorem mem_allPts (entities : List Entity) (e : Entity) (he : e ∈ entities) :
    e.start ∈ allPts entities ∧ e.stop ∈ allPts entities := by
  constructor <;> exact List.mem_flatMap.mpr ⟨e, he, by simp⟩

/-- C10: after unification, any two distinct endpoint values appearing
across the output entities are strictly farther apart than the tolerance
(squared comparison): representatives are only created when no existing one
is within tolerance. -/
theorem unified_endpoints_separated (dist2d angleOf : Point → Point → ℚ)
    (entities : List Entity) (tolerance : ℚ) (htol : 0 ≤ tolerance)
    (e1 e2 : Entity)
    (h1 : e1 ∈ unify_endpoints dist2d angleOf entities tolerance)
    (h2 : e2 ∈ unify_endpoints dist2d angleOf entities tolerance)
    (p q : Point)
    (hp : p = e1.start ∨ p = e1.stop) (hq : q = e2.start ∨ q = e2.stop)
    (hne : p ≠ q) :
    tolerance ^ 2 < sqDist p q := by
  have hmem : ∀ (e : Entity) (r : Point),
      e ∈ unify_endpoints dist2d angleOf entities tolerance →
      (r = e.start ∨ r = e.stop) →
      r ∈ (mergePoints tolerance (allPts entities)).1 := by
    intro e r he hr
    have hall : r ∈ allPts (unify_endpoints dist2d angleOf entities tolerance) := by
      obtain ⟨hs, ht⟩ := mem_allPts _ e he
      rcases hr with rfl | rfl
      · exact hs
      · exact ht
    rw [allPts_unify] at hall
    rcases List.mem_map.mp hall with ⟨r0, hr0, rfl⟩
    exact mergePoints_map_mem tolerance (allPts entities) r0 hr0
  have hpM := hmem e1 p h1 hp
  have hqM := hmem e2 q h2 hq
  have := mergePoints_sep tolerance (allPts entities) p hpM q hqM hne
  exact lt_of_not_le this

/-- Witness for C10 on a single line whose endpoints are far apart. -/
theorem unified_endpoints_separated_witness :
    (1 : ℚ) ^ 2 < sqDist (1, 1) (6, 1) := by
  have hmem : (⟨(1, 1), (6, 1), 0, .line⟩ : Entity) ∈
      unify_endpoints (fun _ _ => 0) (fun _ _ => 0)
        [⟨(1, 1), (6, 1), 0, .line⟩] 1 := by
    norm_num [unify_endpoints, updateEntity, mergePoints, mergeStep, allPts,
      List.find?, sqDist, Prod.mk.injEq, Prod.ext_iff]
  exact unified_endpoints_separated (fun _ _ => 0) (fun _ _ => 0)
    [⟨(1, 1), (6, 1), 0, .line⟩] 1 (by norm_num) _ _ hmem hmem
    (1, 1) (6, 1) (Or.inl rfl) (Or.inr rfl) (by norm_num [Prod.ext_iff])

/-- When every remaining point is one of two values both within tolerance of
the single representative `h`, the merged list stays `[h]` and every
processed point is mapped to `h`. -/
theorem mergeFold_twoval (tolerance : ℚ) (h pa pb : Point)
    (hh : h = pa ∨ h = pb) (hab : sqDist pa pb ≤ tolerance ^ 2) :
    ∀ (rest : List Point), (∀ p ∈ rest, p = pa ∨ p = pb) →
    ∀ (m : Point → Point),
      (rest.foldl (mergeStep tolerance) ([h], m)).1 = [h] ∧
      (∀ q, (rest.foldl (mergeStep tolerance) ([h], m)).2 q = m q ∨
            (rest.foldl (mergeStep tolerance) ([h], m)).2 q = h) ∧
      (∀ p ∈ rest, (rest.foldl (mergeStep tolerance) ([h], m)).2 p = h) := by
  intro rest
  induction rest with
  | nil =>
      intro _ m
      refine ⟨rfl, fun q => Or.inl rfl, fun p hp => absurd hp (List.not_mem_nil p)⟩
  | cons p t ih =>
      intro hmem m
      have hp : p = pa ∨ p = pb := hmem p (List.mem_cons_self p t)
      have hle : sqDist p h ≤ tolerance ^ 2 := by
        rcases hp with rfl | rfl <;> rcases hh with rfl | rfl
        · rw [sqDist_self]
          exact sq_nonneg tolerance
        · exact hab
        · rw [sqDist_comm]
          exact hab
        · rw [sqDist_self]
          exact sq_nonneg tolerance
      have hfind : ([h] : List Point).find?
          (fun mp => decide (sqDist p mp ≤ tolerance ^ 2)) = some h := by
        simp [List.find?, hle]
      have hstep : mergeStep tolerance ([h], m) p =
          ([h], fun q => if q = p then h else m q) := by
        unfold mergeStep
        rw [hfind]
      rw [List.foldl_cons, hstep]
      obtain ⟨ih1, ih2, ih3⟩ :=
        ih (fun q hq => hmem q (List.mem_cons_of_mem p hq))
          (fun q => if q = p then h else m q)
      refine ⟨ih1, ?_, ?_⟩
      · intro q
        rcases ih2 q with hcase | hcase
        · by_cases hqp : q = p
          · right
            rw [hcase, if_pos hqp]
          · left
            rw [hcase, if_neg hqp]
        · right
          exact hcase
      · intro r hr
        rcases List.mem_cons.mp hr with rfl | hr
        · rcases ih2 r with hcase | hcase
          · rw [hcase, if_pos rfl]
          · exact hcase
        · exact ih3 r hr

/-- C6: on an input whose raw endpoint values all lie in `{pa, pb}` with
`pa ≠ pb`, if the Euclidean distance of `pa` and `pb` is exactly the
tolerance `ε` (expressed by its square being `ε²`, the faithful squared
rendering for `0 ≤ ε`) then unification collapses every endpoint to a
single canonical point, and if the distance is `ε + δ` for some `δ > 0`
then no endpoint changes at all: the tolerance is inclusive. -/
theorem tolerance_boundary (dist2d angleOf : Point → Point → ℚ)
    (entities : List Entity) (pa pb : Point) (eps delta : ℚ)
    (heps : 0 ≤ eps) (hdelta : 0 < delta)
    (hvals : ∀ p ∈ allPts entities, p = pa ∨ p = pb) (hne : pa ≠ pb) :
    (sqDist pa pb = eps ^ 2 →
      ∃ c, (c = pa ∨ c = pb) ∧
        ∀ p ∈ allPts (unify_endpoints dist2d angleOf entities eps), p = c) ∧
    (sqDist pa pb = (eps + delta) ^ 2 →
      allPts (unify_endpoints dist2d angleOf entities eps) = allPts entities) := by
  constructor
  · intro hd
    rw [allPts_unify]
    cases hpts : allPts entities with
    | nil =>
        refine ⟨pa, Or.inl rfl, ?_⟩
        intro p hp
        simp at hp
    | cons p0 rest =>
        have hp0 : p0 = pa ∨ p0 = pb := by
          have := hvals p0
          rw [hpts] at this
          exact this (List.mem_cons_self p0 rest)
        have hfirst : mergeStep eps ([], id) p0 =
            ([p0], fun q => if q = p0 then p0 else q) := by
          unfold mergeStep
          rfl
        have hrest : ∀ p ∈ rest, p = pa ∨ p = pb := by
          intro p hp
          have := hvals p
          rw [hpts] at this
          exact this (List.mem_cons_of_mem p0 hp)
        obtain ⟨h1, h2, h3⟩ := mergeFold_twoval eps p0 pa pb hp0 (le_of_eq hd)
          rest hrest (fun q => if q = p0 then p0 else q)
        refine ⟨p0, hp0, ?_⟩
        intro p hp
        unfold mergePoints at hp
        rw [List.foldl_cons, hfirst] at hp
        rcases List.mem_map.mp hp with ⟨r, hr, rfl⟩
        rcases List.mem_cons.mp hr with rfl | hr
        · rcases h2 r with hcase | hcase
          · rw [hcase, if_pos rfl]
          · exact hcase
        · exact h3 r hr
  · intro hd
    rw [allPts_unify]
    have hgt : ¬ sqDist pa pb ≤ eps ^ 2 := by
      rw [hd]
      nlinarith
    have hid : ∀ q, (mergePoints eps (allPts entities)).2 q = q := by
      refine mergePoints_id eps [pa, pb] (allPts entities) ?_ ?_
      · intro p hp
        rcases hvals p hp with rfl | rfl <;> simp
      · intro a ha b hb hab
        have hpa : a = pa ∨ a = pb := by simpa using ha
        have hpb : b = pa ∨ b = pb := by simpa using hb
        rcases hpa with rfl | rfl <;> rcases hpb with rfl | rfl
        · exact absurd rfl hab
        · exact hgt
        · rw [sqDist_comm]
          exact hgt
        · exact absurd rfl hab
    calc (allPts entities).map (mergePoints eps (allPts entities)).2
        = (allPts entities).map id := List.map_congr_left (fun a _ => hid a)
      _ = allPts entities := List.map_id _

/-- Witness for C6: one line of length exactly the tolerance 5 merges to a
single endpoint value; one line of length 6 = 5 + 1 is left unchanged. -/
theorem tolerance_boundary_witness :
    (∃ c, (c = ((1 : ℚ), (1 : ℚ)) ∨ c = ((4 : ℚ), (5 : ℚ))) ∧
      ∀ p ∈ allPts (unify_endpoints (fun _ _ => 0) (fun _ _ => 0)
        [⟨(1, 1), (4, 5), 0, .line⟩] 5), p = c) ∧
    allPts (unify_endpoints (fun _ _ => 0) (fun _ _ => 0)
        [⟨(1, 1), (1, 7), 0, .line⟩] 5) =
      allPts [⟨(1, 1), (1, 7), 0, .line⟩] := by
  constructor
  · exact (tolerance_boundary (fun _ _ => 0) (fun _ _ => 0)
      [⟨(1, 1), (4, 5), 0, .line⟩] (1, 1) (4, 5) 5 1 (by norm_num) (by norm_num)
      (by intro p hp
          simpa [allPts] using hp)
      (by norm_num [Prod.ext_iff])).1 (by norm_num [sqDist])
  · exact (tolerance_boundary (fun _ _ => 0) (fun _ _ => 0)
      [⟨(1, 1), (1, 7), 0, .line⟩] (1, 1) (1, 7) 5 1 (by norm_num) (by norm_num)
      (by intro p hp
          simpa [allPts] using hp)
      (by norm_num [Prod.ext_iff])).2 (by norm_num [sqDist])

/-! ## Connectivity grouping (`build_adjacency`, `find_connected_groups`)

`build_adjacency` keys a dict by endpoint value and lists the indices of the
entities touching that value; `find_connected_groups` then derives an
entity-to-entity adjacency: `e2 ∈ ent_adjacency[e1]` iff some node's list
contains both `e1` and `e2` and `e1 ≠ e2`.  A node's list contains exactly
the entities having that node as `start` or `end`, so the derived relation
holds iff the two entities are distinct and share an endpoint value; the
embedding `entAdjacent` states that extensional content directly.  Python
set-iteration order only affects BFS queue order, which the proofs never
rely on; the embedding enumerates candidates in index order. -/

/-- The two entities have some endpoint value in common. -/
def sharesEndpoint (e1 e2 : Entity) : Bool :=
  decide (e1.start = e2.start) || decide (e1.start = e2.stop) ||
  decide (e1.stop = e2.start) || decide (e1.stop = e2.stop)

/-- The entity-to-entity adjacency derived by `find_connected_groups`
(out-of-range indices have no entry). -/
def entAdjacent (entities : List Entity) (i j : ℕ) : Bool :=
  match entities[i]?, entities[j]? with
  | some e1, some e2 => decide (i ≠ j) && sharesEndpoint e1 e2
  | _, _ => false

theorem sharesEndpoint_symm (e1 e2 : Entity) :
    sharesEndpoint e1 e2 = sharesEndpoint e2 e1 := by
  unfold sharesEndpoint
  rcases e1 with ⟨s1, t1, h1, d1⟩
  rcases e2 with ⟨s2, t2, h2, d2⟩
  rw [Bool.eq_iff_iff]
  simp only [Bool.or_eq_true, decide_eq_true_eq]
  constructor <;> intro h <;> casesm* _ ∨ _ <;> simp [*]

theorem entAdjacent_symm (entities : List Entity) (i j : ℕ) :
    entAdjacent entities i j = entAdjacent entities j i := by
  unfold entAdjacent
  cases h1 : entities[i]? with
  | none =>
      cases h2 : entities[j]? with
      | none => rfl
      | some e2 => rfl
  | some e1 =>
      cases h2 : entities[j]? with
      | none => rfl
      | some e2 =>
          simp only [sharesEndpoint_symm e1 e2]
          by_cases hij : i = j
          · subst hij
            rfl
          · simp [hij, Ne.symm hij]

theorem entAdjacent_lt (entities : List Entity) (i j : ℕ)
    (h : entAdjacent entities i j = true) :
    i < entities.length ∧ j < entities.length := by
  unfold entAdjacent at h
  cases h1 : entities[i]? with
  | none => rw [h1] at h; cases h2 : entities[j]? <;> rw [h2] at h <;> simp at h
  | some e1 =>
      cases h2 : entities[j]? with
      | none => rw [h1, h2] at h; simp at h
      | some e2 =>
          constructor
          · by_contra hlt
            push_neg at hlt
            rw [List.getElem?_eq_none hlt] at h1
            simp at h1
          · by_contra hlt
            push_neg at hlt
            rw [List.getElem?_eq_none hlt] at h2
            simp at h2

/-- Fresh neighbors of `cur`: the adjacent entities not yet in `connected`
(the inner loop of the source's `bfs`). -/
def bfsNews (adj : ℕ → ℕ → Bool) (n cur : ℕ) (connected : Finset ℕ) : List ℕ :=
  (List.range n).filter (fun j => adj cur j && decide (j ∉ connected))

/-- The queue loop of the source's `bfs`, with explicit fuel as the
termination device; each entity is enqueued at most once, so `2n + 1` fuel
always drains the queue (proved below). -/
def bfsAux (adj : ℕ → ℕ → Bool) (n : ℕ) :
    ℕ → List ℕ → Finset ℕ → Finset ℕ
  | 0, _, connected => connected
  | _ + 1, [], connected => connected
  | fuel + 1, cur :: queue, connected =>
      bfsAux adj n fuel (queue ++ bfsNews adj n cur connected)
        (connected ∪ (bfsNews adj n cur connected).toFinset)

/-- Embedding of the `bfs(start_ent)` helper of `find_connected_groups`. -/
def bfs (adj : ℕ → ℕ → Bool) (n start : ℕ) : Finset ℕ :=
  bfsAux adj n (2 * n + 1) [start] {start}

theorem mem_bfsNews (adj : ℕ → ℕ → Bool) (n cur : ℕ) (connected : Finset ℕ)
    (j : ℕ) : j ∈ bfsNews adj n cur connected ↔
      j < n ∧ adj cur j = true ∧ j ∉ connected := by
  unfold bfsNews
  simp [List.mem_filter, List.mem_range, and_assoc]

theorem bfsAux_subset (adj : ℕ → ℕ → Bool) (n : ℕ) :
    ∀ (fuel : ℕ) (queue : List ℕ) (connected : Finset ℕ),
    connected ⊆ bfsAux adj n fuel queue connected := by
  intro fuel
  induction fuel with
  | zero => intro queue connected; rw [bfsAux]
  | succ f ih =>
      intro queue connected
      cases queue with
      | nil => rw [bfsAux]
      | cons cur rest =>
          rw [bfsAux]
          exact Finset.Subset.trans Finset.subset_union_left (ih _ _)

theorem bfsAux_sound (adj : ℕ → ℕ → Bool) (n start : ℕ) :
    ∀ (fuel : ℕ) (queue : List ℕ) (connected : Finset ℕ),
    (∀ x ∈ connected, Relation.ReflTransGen (fun a b => adj a b = true) start x) →
    (∀ x ∈ queue, Relation.ReflTransGen (fun a b => adj a b = true) start x) →
    ∀ x ∈ bfsAux adj n fuel queue connected,
      Relation.ReflTransGen (fun a b => adj a b = true) start x := by
  intro fuel
  induction fuel with
  | zero =>
      intro queue connected hc _ x hx
      rw [bfsAux] at hx
      exact hc x hx
  | succ f ih =>
      intro queue connected hc hq x hx
      cases queue with
      | nil =>
          rw [bfsAux] at hx
          exact hc x hx
      | cons cur rest =>
          rw [bfsAux] at hx
          refine ih _ _ ?_ ?_ x hx
          · intro y hy
            rcases Finset.mem_union.mp hy with hy | hy
            · exact hc y hy
            · have := (mem_bfsNews adj n cur connected y).mp (List.mem_toFinset.mp hy)
              exact Relation.ReflTransGen.tail (hq cur (List.mem_cons_self cur rest))
                this.2.1
          · intro y hy
            rcases List.mem_append.mp hy with hy | hy
            · exact hq y (List.mem_cons_of_mem cur hy)
            · have := (mem_bfsNews adj n cur connected y).mp hy
              exact Relation.ReflTransGen.tail (hq cur (List.mem_cons_self cur rest))
                this.2.1

theorem bfsNews_nodup (adj : ℕ → ℕ → Bool) (n cur : ℕ) (connected : Finset ℕ) :
    (bfsNews adj n cur connected).Nodup :=
  (List.nodup_range n).filter _

/-- With fuel at least `|queue| + 2·(n − |connected|)`, the BFS drains its
queue, and the resulting set is closed under the adjacency relation. -/
theorem bfsAux_closed (adj : ℕ → ℕ → Bool) (n : ℕ)
    (hb : ∀ i j, adj i j = true → i < n ∧ j < n) :
    ∀ (fuel : ℕ) (queue : List ℕ) (connected : Finset ℕ),
    connected ⊆ Finset.range n →
    (∀ x ∈ queue, x ∈ connected) →
    (∀ i ∈ connected, i ∉ queue → ∀ j, adj i j = true → j ∈ connected) →
    queue.length + 2 * (n - connected.card) ≤ fuel →
    ∀ i ∈ bfsAux adj n fuel queue connected, ∀ j, adj i j = true →
      j ∈ bfsAux adj n fuel queue connected := by
  intro fuel
  induction fuel with
  | zero =>
      intro queue connected hrange hq hclosed hfuel
      have hq0 : queue = [] := by
        cases queue with
        | nil => rfl
        | cons a t => simp at hfuel
      subst hq0
      rw [bfsAux]
      intro i hi j hj
      exact hclosed i hi (List.not_mem_nil i) j hj
  | succ f ih =>
      intro queue connected hrange hq hclosed hfuel
      cases queue with
      | nil =>
          rw [bfsAux]
          intro i hi j hj
          exact hclosed i hi (List.not_mem_nil i) j hj
      | cons cur rest =>
          rw [bfsAux]
          set news := bfsNews adj n cur connected with hnews
          have hnewsub : ∀ x ∈ news, x < n ∧ adj cur x = true ∧ x ∉ connected := by
            intro x hx
            exact (mem_bfsNews adj n cur connected x).mp hx
          refine ih (rest ++ news) (connected ∪ news.toFinset) ?_ ?_ ?_ ?_
          · intro x hx
            rcases Finset.mem_union.mp hx with hx | hx
            · exact hrange hx
            · exact Finset.mem_range.mpr (hnewsub x (List.mem_toFinset.mp hx)).1
          · intro x hx
            rcases List.mem_append.mp hx with hx | hx
            · exact Finset.mem_union_left _ (hq x (List.mem_cons_of_mem cur hx))
            · exact Finset.mem_union_right _ (List.mem_toFinset.mpr hx)
          · intro i hi hiq j hj
            by_cases hic : i = cur
            · subst hic
              by_cases hjc : j ∈ connected
              · exact Finset.mem_union_left _ hjc
              · refine Finset.mem_union_right _ (List.mem_toFinset.mpr ?_)
                exact (mem_bfsNews adj n i connected j).mpr
                  ⟨(hb i j hj).2, hj, hjc⟩
            · rcases Finset.mem_union.mp hi with hi | hi
              · have hirest : i ∉ rest := fun hx =>
                  hiq (List.mem_append.mpr (Or.inl hx))
                have hiqueue : i ∉ cur :: rest := by
                  intro hx
                  rcases List.mem_cons.mp hx with hx | hx
                  · exact hic hx
                  · exact hirest hx
                exact Finset.mem_union_left _ (hclosed i hi hiqueue j hj)
              · exact absurd (List.mem_append.mpr (Or.inr (List.mem_toFinset.mp hi)))
                  hiq
          · have hdisj : Disjoint connected news.toFinset := by
              rw [Finset.disjoint_right]
              intro x hx
              exact (hnewsub x (List.mem_toFinset.mp hx)).2.2
            have hcard : (connected ∪ news.toFinset).card =
                connected.card + news.length := by
              rw [Finset.card_union_of_disjoint hdisj,
                List.toFinset_card_of_nodup (bfsNews_nodup adj n cur connected)]
            have hsub : (connected ∪ news.toFinset).card ≤ n := by
              have hss : connected ∪ news.toFinset ⊆ Finset.range n := by
                intro x hx
                rcases Finset.mem_union.mp hx with hx | hx
                · exact hrange hx
                · exact Finset.mem_range.mpr (hnewsub x (List.mem_toFinset.mp hx)).1
              have := Finset.card_le_card hss
              simpa [Finset.card_range] using this
            rw [List.length_append, hcard]
            rw [List.length_cons] at hfuel
            omega

/-- The set computed by `bfs` is exactly the set of entities reachable from
`start` through the adjacency relation. -/
theorem bfs_mem_iff (adj : ℕ → ℕ → Bool) (n start : ℕ)
    (hb : ∀ i j, adj i j = true → i < n ∧ j < n) (hstart : start < n) (x : ℕ) :
    x ∈ bfs adj n start ↔
      Relation.ReflTransGen (fun a b => adj a b = true) start x := by
  constructor
  · intro hx
    refine bfsAux_sound adj n start _ _ _ ?_ ?_ x hx
    · intro y hy
      rw [Finset.mem_singleton] at hy
      subst hy
      exact Relation.ReflTransGen.refl
    · intro y hy
      rw [List.mem_singleton] at hy
      subst hy
      exact Relation.ReflTransGen.refl
  · intro hreach
    have hclosed := bfsAux_closed adj n hb (2 * n + 1) [start] {start}
      (by
        intro y hy
        rw [Finset.mem_singleton] at hy
        subst hy
        exact Finset.mem_range.mpr hstart)
      (by
        intro y hy
        rw [List.mem_singleton] at hy
        subst hy
        exact Finset.mem_singleton_self _)
      (by
        intro i hi hiq
        rw [Finset.mem_singleton] at hi
        subst hi
        exact absurd (List.mem_singleton_self i) hiq)
      (by
        have : ({start} : Finset ℕ).card = 1 := Finset.card_singleton start
        rw [this]
        simp only [List.length_singleton]
        omega)
    have hstartmem : start ∈ bfs adj n start :=
      bfsAux_subset adj n (2 * n + 1) [start] {start} (Finset.mem_singleton_self start)
    induction hreach with
    | refl => exact hstartmem
    | tail hr hadj ihr => exact hclosed _ ihr _ hadj

/-- Embedding of `find_connected_groups(entities)`: for each entity index in
order, if not yet visited, run `bfs` from it and append the resulting group,
adding it to the visited set. -/
def find_connected_groups (entities : List Entity) : List (Finset ℕ) :=
  ((List.range entities.length).foldl
    (fun (st : Finset ℕ × List (Finset ℕ)) i =>
      if i ∈ st.1 then st
      else (st.1 ∪ bfs (entAdjacent entities) entities.length i,
            st.2 ++ [bfs (entAdjacent entities) entities.length i]))
    (∅, [])).2

/-- C1: the groups returned by `find_connected_groups` are non-empty and
pairwise disjoint, their union is exactly the input index set
`{0..n-1}`, and two indices lie in a common group iff a path of
pairwise-endpoint-sharing entities connects them. -/
theorem find_connected_groups_partition (entities : List Entity) :
    (∀ g ∈ find_connected_groups entities, g.Nonempty) ∧
    (find_connected_groups entities).Pairwise (fun g h => Disjoint g h) ∧
    (∀ i, (∃ g ∈ find_connected_groups entities, i ∈ g) ↔ i < entities.length) ∧
    (∀ i j, i < entities.length → j < entities.length →
      ((∃ g ∈ find_connected_groups entities, i ∈ g ∧ j ∈ g) ↔
        Relation.ReflTransGen
          (fun a b => entAdjacent entities a b = true) i j)) := by
  have hb : ∀ i j, entAdjacent entities i j = true →
      i < entities.length ∧ j < entities.length :=
    fun i j h => entAdjacent_lt entities i j h
  have hsym : Symmetric (fun a b => entAdjacent entities a b = true) := by
    intro a b h
    rw [entAdjacent_symm]
    exact h
  have hRsym : Symmetric
      (Relation.ReflTransGen (fun a b => entAdjacent entities a b = true)) :=
    Relation.ReflTransGen.symmetric hsym
  have hlt : ∀ i x,
      Relation.ReflTransGen (fun a b => entAdjacent entities a b = true) i x →
      i < entities.length → x < entities.length := by
    intro i x h hi
    induction h with
    | refl => exact hi
    | tail hr ha ih => exact (hb _ _ ha).2
  have hbfs : ∀ i, i < entities.length → ∀ x,
      x ∈ bfs (entAdjacent entities) entities.length i ↔
      Relation.ReflTransGen (fun a b => entAdjacent entities a b = true) i x :=
    fun i hi x => bfs_mem_iff (entAdjacent entities) entities.length i hb hi x
  have hP := foldl_invariant
    (fun (st : Finset ℕ × List (Finset ℕ)) i =>
      if i ∈ st.1 then st
      else (st.1 ∪ bfs (entAdjacent entities) entities.length i,
            st.2 ++ [bfs (entAdjacent entities) entities.length i]))
    (fun st =>
      (∀ g ∈ st.2, ∃ r, r < entities.length ∧ ∀ x, x ∈ g ↔
        Relation.ReflTransGen (fun a b => entAdjacent entities a b = true) r x) ∧
      (∀ x, x ∈ st.1 ↔ ∃ g ∈ st.2, x ∈ g) ∧
      st.2.Pairwise (fun g h => Disjoint g h))
    (List.range entities.length) (∅, [])
    ⟨by simp, by simp, List.Pairwise.nil⟩
    (by
      intro st i hi hPst
      obtain ⟨h1, h2, h3⟩ := hPst
      have hin : i < entities.length := List.mem_range.mp hi
      by_cases hiv : i ∈ st.1
      · simpa [hiv] using ⟨h1, h2, h3⟩
      · simp only [if_neg hiv]
        refine ⟨?_, ?_, ?_⟩
        · intro g hg
          rcases List.mem_append.mp hg with hg | hg
          · exact h1 g hg
          · rw [List.mem_singleton] at hg
            subst hg
            exact ⟨i, hin, fun x => hbfs i hin x⟩
        · intro x
          constructor
          · intro hx
            rcases Finset.mem_union.mp hx with hx | hx
            · rcases (h2 x).mp hx with ⟨g, hg, hxg⟩
              exact ⟨g, List.mem_append.mpr (Or.inl hg), hxg⟩
            · exact ⟨_, List.mem_append.mpr
                (Or.inr (List.mem_singleton_self _)), hx⟩
          · rintro ⟨g, hg, hxg⟩
            rcases List.mem_append.mp hg with hg | hg
            · exact Finset.mem_union_left _ ((h2 x).mpr ⟨g, hg, hxg⟩)
            · rw [List.mem_singleton] at hg
              subst hg
              exact Finset.mem_union_right _ hxg
        · rw [List.pairwise_append]
          refine ⟨h3, List.pairwise_singleton _ _, ?_⟩
          intro g hg b hbmem
          rw [List.mem_singleton] at hbmem
          subst hbmem
          rw [Finset.disjoint_right]
          intro x hxb hxg
          rcases h1 g hg with ⟨r, hr, hiff⟩
          have hrx := (hiff x).mp hxg
          have hix := (hbfs i hin x).mp hxb
          have hri := hrx.trans (hRsym hix)
          exact hiv ((h2 i).mpr ⟨g, hg, (hiff i).mpr hri⟩))
  have hcov := foldl_establish
    (fun (st : Finset ℕ × List (Finset ℕ)) i =>
      if i ∈ st.1 then st
      else (st.1 ∪ bfs (entAdjacent entities) entities.length i,
            st.2 ++ [bfs (entAdjacent entities) entities.length i]))
    (fun i st => i ∈ st.1)
    (by
      intro st a
      by_cases ha : a ∈ st.1
      · simp only [if_pos ha]
        exact ha
      · simp only [if_neg ha]
        refine Finset.mem_union_right _ ?_
        exact bfsAux_subset _ _ _ _ _ (Finset.mem_singleton_self a)
      )
    (by
      intro st a b hmem
      by_cases hbm : b ∈ st.1
      · simpa [hbm] using hmem
      · simp only [if_neg hbm]
        exact Finset.mem_union_left _ hmem)
    (List.range entities.length) (∅, [])
  obtain ⟨h1, h2, h3⟩ := hP
  unfold find_connected_groups
  refine ⟨?_, h3, ?_, ?_⟩
  · intro g hg
    rcases h1 g hg with ⟨r, hr, hiff⟩
    exact ⟨r, (hiff r).mpr Relation.ReflTransGen.refl⟩
  · intro i
    constructor
    · rintro ⟨g, hg, hig⟩
      rcases h1 g hg with ⟨r, hr, hiff⟩
      exact hlt r i ((hiff i).mp hig) hr
    · intro hi
      exact (h2 i).mp (hcov i (List.mem_range.mpr hi))
  · intro i j hi hj
    constructor
    · rintro ⟨g, hg, hig, hjg⟩
      rcases h1 g hg with ⟨r, hr, hiff⟩
      exact (hRsym ((hiff i).mp hig)).trans ((hiff j).mp hjg)
    · intro hR
      rcases (h2 i).mp (hcov i (List.mem_range.mpr hi)) with ⟨g, hg, hig⟩
      rcases h1 g hg with ⟨r, hr, hiff⟩
      exact ⟨g, hg, hig, (hiff j).mpr (((hiff i).mp hig).trans hR)⟩

/-- Three lines, the first two sharing the endpoint (1,0). -/
def demoEntities : List Entity :=
  [⟨(0, 0), (1, 0), 0, .line⟩, ⟨(1, 0), (2, 0), 1, .line⟩,
   ⟨(5, 5), (6, 5), 2, .line⟩]

/-- Witness for C1: entities 0 and 1 of the demo input share an endpoint and
land in a common group. -/
theorem find_connected_groups_partition_witness :
    ∃ g ∈ find_connected_groups demoEntities, 0 ∈ g ∧ 1 ∈ g :=
  ((find_connected_groups_partition demoEntities).2.2.2 0 1
      (by decide) (by decide)).mpr
    (Relation.ReflTransGen.single (by decide))

/-! ## Line chaining (`build_line_adjacency`, `chain_lines`) -/

/-- Embedding of the `build_line_adjacency` dict at one node: the indices of
the lines having `p` as start or end, in insertion order (per line: start
entry then end entry, lines in index order — exactly the source's dict
append order; a degenerate line with `start = end = p` appears twice). -/
def lineAdj (lines : List Entity) (p : Point) : List ℕ :=
  (List.range lines.length).flatMap (fun i =>
    (if (lines.getD i default).start = p then [i] else []) ++
    (if (lines.getD i default).stop = p then [i] else []))

/-- Embedding of the `other_end` helper of `chain_lines`: the source's
`distance_2d(pt, line["start"]) < 1e-12` becomes the squared comparison
against `(10⁻¹²)²`. -/
def other_end (line : Entity) (pt : Point) : Point :=
  if sqDist pt line.start < ((1 : ℚ) / 10 ^ 12) ^ 2 then line.stop else line.start

/-- The forward walk of `chain_lines`: repeatedly take the first unvisited
line at the current endpoint, mark it visited, append its far endpoint.
The ghost list `used` records the visited lines; fuel only serves
termination (each step visits a fresh line). -/
def walkForward (lines : List Entity) :
    ℕ → Point → Finset ℕ → List Point → List ℕ → List Point × Finset ℕ × List ℕ
  | 0, _, visited, chain_pts, used => (chain_pts, visited, used)
  | fuel + 1, current, visited, chain_pts, used =>
      match (lineAdj lines current).find? (fun j => decide (j ∉ visited)) with
      | none => (chain_pts, visited, used)
      | some j =>
          walkForward lines fuel (other_end (lines.getD j default) current)
            (insert j visited)
            (chain_pts ++ [other_end (lines.getD j default) current])
            (used ++ [j])

/-- The backward walk of `chain_lines`: as the forward walk, but the far
endpoint is pushed onto the front of the prefix list. -/
def walkBackward (lines : List Entity) :
    ℕ → Point → Finset ℕ → List Point → List ℕ → List Point × Finset ℕ × List ℕ
  | 0, _, visited, pre, used => (pre, visited, used)
  | fuel + 1, current, visited, pre, used =>
      match (lineAdj lines current).find? (fun j => decide (j ∉ visited)) with
      | none => (pre, visited, used)
      | some j =>
          walkBackward lines fuel (other_end (lines.getD j default) current)
            (insert j visited)
            ([other_end (lines.getD j default) current] ++ pre)
            (used ++ [j])

/-- One iteration of the outer loop of `chain_lines` from unvisited seed
`i`: seed the chain with the line's two endpoints, walk forward from its
end, walk backward from its start, and return `prefix ++ chain_pts`
together with the updated visited set and the consumed line indices. -/
def chainFrom (lines : List Entity) (i : ℕ) (visited : Finset ℕ) :
    List Point × Finset ℕ × List ℕ :=
  ((walkBackward lines lines.length (lines.getD i default).start
      (walkForward lines lines.length (lines.getD i default).stop
        (insert i visited)
        [(lines.getD i default).start, (lines.getD i default).stop] []).2.1
      [] []).1 ++
    (walkForward lines lines.length (lines.getD i default).stop
      (insert i visited)
      [(lines.getD i default).start, (lines.getD i default).stop] []).1,
   (walkBackward lines lines.length (lines.getD i default).start
      (walkForward lines lines.length (lines.getD i default).stop
        (insert i visited)
        [(lines.getD i default).start, (lines.getD i default).stop] []).2.1
      [] []).2.1,
   [i] ++
    (walkForward lines lines.length (lines.getD i default).stop
      (insert i visited)
      [(lines.getD i default).start, (lines.getD i default).stop] []).2.2 ++
    (walkBackward lines lines.length (lines.getD i default).start
      (walkForward lines lines.length (lines.getD i default).stop
        (insert i visited)
        [(lines.getD i default).start, (lines.getD i default).stop] []).2.1
      [] []).2.2)

/-- `chain_lines` with ghost instrumentation: alongside each polyline, the
list of line indices consumed while building it (the per-chain part of the
source's `visited` bookkeeping); the second component is the visited set. -/
def chain_lines_aux (lines : List Entity) :
    List (List Point × List ℕ) × Finset ℕ :=
  (List.range lines.length).foldl
    (fun (st : List (List Point × List ℕ) × Finset ℕ) i =>
      if i ∈ st.2 then st
      else (st.1 ++ [((chainFrom lines i st.2).1, (chainFrom lines i st.2).2.2)],
            (chainFrom lines i st.2).2.1))
    ([], ∅)

/-- Embedding of `chain_lines(lines)`: the list of polylines (an empty
input yields `[]`, as in the source's early return). -/
def chain_lines (lines : List Entity) : List (List Point) :=
  (chain_lines_aux lines).1.map Prod.fst

/-- All endpoint values of the input are pairwise either equal or at squared
distance at least `(10⁻¹²)²` — the separation that `unify_endpoints`
guarantees and that `other_end`'s exact-match test needs. -/
def EndpointSep (lines : List Entity) : Prop :=
  ∀ p ∈ allPts lines, ∀ q ∈ allPts lines,
    p = q ∨ ¬ sqDist p q < ((1 : ℚ) / 10 ^ 12) ^ 2

theorem mem_lineAdj (lines : List Entity) (p : Point) (j : ℕ) :
    j ∈ lineAdj lines p ↔ j < lines.length ∧
      ((lines.getD j default).start = p ∨ (lines.getD j default).stop = p) := by
  unfold lineAdj
  rw [List.mem_flatMap]
  constructor
  · rintro ⟨i, hi, hmem⟩
    rcases List.mem_append.mp hmem with hmem | hmem
    · by_cases hc : (lines.getD i default).start = p
      · rw [if_pos hc, List.mem_singleton] at hmem
        subst hmem
        exact ⟨List.mem_range.mp hi, Or.inl hc⟩
      · rw [if_neg hc] at hmem
        simp at hmem
    · by_cases hc : (lines.getD i default).stop = p
      · rw [if_pos hc, List.mem_singleton] at hmem
        subst hmem
        exact ⟨List.mem_range.mp hi, Or.inr hc⟩
      · rw [if_neg hc] at hmem
        simp at hmem
  · rintro ⟨hj, hc | hc⟩
    · exact ⟨j, List.mem_range.mpr hj,
        List.mem_append.mpr (Or.inl (by rw [if_pos hc]; exact List.mem_singleton_self j))⟩
    · exact ⟨j, List.mem_range.mpr hj,
        List.mem_append.mpr (Or.inr (by rw [if_pos hc]; exact List.mem_singleton_self j))⟩

theorem getD_mem (lines : List Entity) (j : ℕ) (hj : j < lines.length) :
    lines.getD j default ∈ lines := by
  rw [List.getD_eq_getElem lines default hj]
  exact List.getElem_mem hj

/-- Under endpoint separation, the far endpoint computed by `other_end` for
a line adjacent at `current` is correct: the line's two endpoints are
covered by `{current, other_end}`, and the far endpoint is again an
endpoint value of the input. -/
theorem other_end_covers (lines : List Entity) (hsep : EndpointSep lines)
    (j : ℕ) (hj : j < lines.length) (current : Point)
    (hcur : (lines.getD j default).start = current ∨
            (lines.getD j default).stop = current)
    (hcmem : current ∈ allPts lines) :
    ((lines.getD j default).start = current ∨
      (lines.getD j default).start = other_end (lines.getD j default) current) ∧
    ((lines.getD j default).stop = current ∨
      (lines.getD j default).stop = other_end (lines.getD j default) current) ∧
    other_end (lines.getD j default) current ∈ allPts lines := by
  have hline := getD_mem lines j hj
  obtain ⟨hsmem, htmem⟩ := mem_allPts lines (lines.getD j default) hline
  by_cases hs : (lines.getD j default).start = current
  · have hd : sqDist current (lines.getD j default).start <
        ((1 : ℚ) / 10 ^ 12) ^ 2 := by
      rw [hs, sqDist_self]
      positivity
    unfold other_end
    rw [if_pos hd]
    exact ⟨Or.inl hs, Or.inr rfl, htmem⟩
  · have ht : (lines.getD j default).stop = current := by
      rcases hcur with h | h
      · exact absurd h hs
      · exact h
    have hd : ¬ sqDist current (lines.getD j default).start <
        ((1 : ℚ) / 10 ^ 12) ^ 2 := by
      rcases hsep current hcmem (lines.getD j default).start hsmem with h | h
      · exact absurd h.symm hs
      · exact h
    unfold other_end
    rw [if_neg hd]
    exact ⟨Or.inr rfl, Or.inl ht, hsmem⟩

/-- Specification of the forward walk: it appends some points and consumes
some fresh lines, one point per line; every consumed line has both
endpoints in the grown chain. -/
theorem walkForward_spec (lines : List Entity) (hsep : EndpointSep lines) :
    ∀ (fuel : ℕ) (current : Point) (visited : Finset ℕ)
      (pts : List Point) (used : List ℕ),
    current ∈ allPts lines → current ∈ pts →
    ∃ dpts dused,
      walkForward lines fuel current visited pts used =
        (pts ++ dpts, visited ∪ dused.toFinset, used ++ dused) ∧
      dpts.length = dused.length ∧
      dused.Nodup ∧
      (∀ x ∈ dused, x ∉ visited ∧ x < lines.length) ∧
      (∀ j ∈ dused, (lines.getD j default).start ∈ pts ++ dpts ∧
                    (lines.getD j default).stop ∈ pts ++ dpts) := by
  intro fuel
  induction fuel with
  | zero =>
      intro current visited pts used _ _
      exact ⟨[], [], by simp [walkForward], rfl, List.nodup_nil,
        fun x hx => absurd hx (List.not_mem_nil x),
        fun j hj => absurd hj (List.not_mem_nil j)⟩
  | succ f ih =>
      intro current visited pts used hcmem hcpts
      cases hfind : (lineAdj lines current).find? (fun j => decide (j ∉ visited)) with
      | none =>
          refine ⟨[], [], ?_, rfl, List.nodup_nil,
            fun x hx => absurd hx (List.not_mem_nil x),
            fun j hj => absurd hj (List.not_mem_nil j)⟩
          rw [walkForward, hfind]
          simp
      | some j =>
          have hjadj := List.mem_of_find?_eq_some hfind
          have hjnv : j ∉ visited := by
            simpa using List.find?_some hfind
          obtain ⟨hjn, hcur⟩ := (mem_lineAdj lines current j).mp hjadj
          obtain ⟨hcov1, hcov2, homem⟩ :=
            other_end_covers lines hsep j hjn current hcur hcmem
          obtain ⟨dpts', dused', heq, hlen, hnd, hfresh, hcov⟩ :=
            ih (other_end (lines.getD j default) current) (insert j visited)
              (pts ++ [other_end (lines.getD j default) current]) (used ++ [j])
              homem (List.mem_append.mpr (Or.inr (List.mem_singleton_self _)))
          refine ⟨[other_end (lines.getD j default) current] ++ dpts', [j] ++ dused',
            ?_, by simpa using hlen, ?_, ?_, ?_⟩
          · rw [walkForward, hfind]
            show walkForward lines f (other_end (lines.getD j default) current)
                (insert j visited)
                (pts ++ [other_end (lines.getD j default) current]) (used ++ [j]) = _
            rw [heq]
            simp [List.append_assoc, List.toFinset_cons, Finset.union_insert,
              Finset.insert_union]
          · refine List.Nodup.cons ?_ hnd
            intro hjin
            exact (hfresh j hjin).1 (Finset.mem_insert_self j visited)
          · intro x hx
            rcases List.mem_cons.mp hx with rfl | hx
            · exact ⟨hjnv, hjn⟩
            · obtain ⟨hxv, hxn⟩ := hfresh x hx
              exact ⟨fun hc => hxv (Finset.mem_insert_of_mem hc), hxn⟩
          · intro k hk
            rcases List.mem_cons.mp hk with rfl | hk
            · constructor
              · rcases hcov1 with h | h
                · rw [h]
                  exact List.mem_append.mpr (Or.inl hcpts)
                · rw [h]
                  refine List.mem_append.mpr (Or.inr ?_)
                  exact List.mem_append.mpr (Or.inl (List.mem_singleton_self _))
              · rcases hcov2 with h | h
                · rw [h]
                  exact List.mem_append.mpr (Or.inl hcpts)
                · rw [h]
                  refine List.mem_append.mpr (Or.inr ?_)
                  exact List.mem_append.mpr (Or.inl (List.mem_singleton_self _))
            · obtain ⟨h1, h2⟩ := hcov k hk
              constructor
              · rw [List.append_assoc] at h1
                exact h1
              · rw [List.append_assoc] at h2
                exact h2

/-- Specification of the backward walk: it prepends some points and consumes
some fresh lines, one point per line; every consumed line has both
endpoints either among the grown prefix or equal to the walk's anchor
point. -/
theorem walkBackward_spec (lines : List Entity) (hsep : EndpointSep lines) :
    ∀ (fuel : ℕ) (current : Point) (visited : Finset ℕ)
      (pre : List Point) (used : List ℕ),
    current ∈ allPts lines →
    ∃ dpts dused,
      walkBackward lines fuel current visited pre used =
        (dpts ++ pre, visited ∪ dused.toFinset, used ++ dused) ∧
      dpts.length = dused.length ∧
      dused.Nodup ∧
      (∀ x ∈ dused, x ∉ visited ∧ x < lines.length) ∧
      (∀ j ∈ dused,
        ((lines.getD j default).start ∈ dpts ++ pre ∨
          (lines.getD j default).start = current) ∧
        ((lines.getD j default).stop ∈ dpts ++ pre ∨
          (lines.getD j default).stop = current)) := by
  intro fuel
  induction fuel with
  | zero =>
      intro current visited pre used _
      exact ⟨[], [], by simp [walkBackward], rfl, List.nodup_nil,
        fun x hx => absurd hx (List.not_mem_nil x),
        fun j hj => absurd hj (List.not_mem_nil j)⟩
  | succ f ih =>
      intro current visited pre used hcmem
      cases hfind : (lineAdj lines current).find? (fun j => decide (j ∉ visited)) with
      | none =>
          refine ⟨[], [], ?_, rfl, List.nodup_nil,
            fun x hx => absurd hx (List.not_mem_nil x),
            fun j hj => absurd hj (List.not_mem_nil j)⟩
          rw [walkBackward, hfind]
          simp
      | some j =>
          have hjadj := List.mem_of_find?_eq_some hfind
          have hjnv : j ∉ visited := by
            simpa using List.find?_some hfind
          obtain ⟨hjn, hcur⟩ := (mem_lineAdj lines current j).mp hjadj
          obtain ⟨hcov1, hcov2, homem⟩ :=
            other_end_covers lines hsep j hjn current hcur hcmem
          obtain ⟨dpts', dused', heq, hlen, hnd, hfresh, hcov⟩ :=
            ih (other_end (lines.getD j default) current) (insert j visited)
              ([other_end (lines.getD j default) current] ++ pre) (used ++ [j])
              homem
          refine ⟨dpts' ++ [other_end (lines.getD j default) current], [j] ++ dused',
            ?_, by simpa using hlen.symm ▸ (by simp [hlen]), ?_, ?_, ?_⟩
          · rw [walkBackward, hfind]
            show walkBackward lines f (other_end (lines.getD j default) current)
                (insert j visited)
                ([other_end (lines.getD j default) current] ++ pre) (used ++ [j]) = _
            rw [heq]
            simp [List.append_assoc, List.toFinset_cons, Finset.union_insert,
              Finset.insert_union]
          · refine List.Nodup.cons ?_ hnd
            intro hjin
            exact (hfresh j hjin).1 (Finset.mem_insert_self j visited)
          · intro x hx
            rcases List.mem_cons.mp hx with rfl | hx
            · exact ⟨hjnv, hjn⟩
            · obtain ⟨hxv, hxn⟩ := hfresh x hx
              exact ⟨fun hc => hxv (Finset.mem_insert_of_mem hc), hxn⟩
          · intro k hk
            have homem2 : other_end (lines.getD j default) current ∈
                (dpts' ++ [other_end (lines.getD j default) current]) ++ pre := by
              refine List.mem_append.mpr (Or.inl ?_)
              exact List.mem_append.mpr (Or.inr (List.mem_singleton_self _))
            rcases List.mem_cons.mp hk with rfl | hk
            · constructor
              · rcases hcov1 with h | h
                · right
                  exact h
                · left
                  rw [h]
                  exact homem2
              · rcases hcov2 with h | h
                · right
                  exact h
                · left
                  rw [h]
                  exact homem2
            · obtain ⟨h1, h2⟩ := hcov k hk
              have hre : dpts' ++ ([other_end (lines.getD j default) current] ++ pre) =
                  (dpts' ++ [other_end (lines.getD j default) current]) ++ pre := by
                rw [List.append_assoc]
              constructor
              · rcases h1 with h | h
                · left
                  rw [← hre]
                  exact h
                · left
                  rw [h]
                  exact homem2
              · rcases h2 with h | h
                · left
                  rw [← hre]
                  exact h
                · left
                  rw [h]
                  exact homem2

/-- Specification of one outer-loop chain: the visited set grows by exactly
the consumed lines; the seed is consumed; the polyline has one more point
than consumed lines (hence at least 2); every consumed line has both its
endpoints on the polyline; and the polyline is a backward prefix followed
by the forward chain, which begins with the seed's two endpoints. -/
theorem chainFrom_spec (lines : List Entity) (hsep : EndpointSep lines)
    (i : ℕ) (hi : i < lines.length) (visited : Finset ℕ) (hiv : i ∉ visited) :
    (chainFrom lines i visited).2.1 =
      visited ∪ ((chainFrom lines i visited).2.2).toFinset ∧
    ((chainFrom lines i visited).2.2).Nodup ∧
    (∀ x ∈ (chainFrom lines i visited).2.2, x ∉ visited ∧ x < lines.length) ∧
    i ∈ (chainFrom lines i visited).2.2 ∧
    (chainFrom lines i visited).1.length =
      ((chainFrom lines i visited).2.2).length + 1 ∧
    (∀ j ∈ (chainFrom lines i visited).2.2,
      (lines.getD j default).start ∈ (chainFrom lines i visited).1 ∧
      (lines.getD j default).stop ∈ (chainFrom lines i visited).1) ∧
    (∃ pre ch, (chainFrom lines i visited).1 = pre ++ ch ∧
      ch.take 2 =
        [(lines.getD i default).start, (lines.getD i default).stop]) := by
  obtain ⟨hsmem, htmem⟩ := mem_allPts lines _ (getD_mem lines i hi)
  obtain ⟨fdp, fdu, heqF, hlenF, hndF, hfreshF, hcovF⟩ :=
    walkForward_spec lines hsep lines.length (lines.getD i default).stop
      (insert i visited)
      [(lines.getD i default).start, (lines.getD i default).stop] [] htmem
      (by simp)
  obtain ⟨bdp, bdu, heqB, hlenB, hndB, hfreshB, hcovB⟩ :=
    walkBackward_spec lines hsep lines.length (lines.getD i default).start
      (insert i visited ∪ fdu.toFinset) [] [] hsmem
  have hF2 : (walkForward lines lines.length (lines.getD i default).stop
      (insert i visited)
      [(lines.getD i default).start, (lines.getD i default).stop] []).2.1 =
      insert i visited ∪ fdu.toFinset := by
    rw [heqF]
  have hcf : chainFrom lines i visited =
      (bdp ++ ([(lines.getD i default).start, (lines.getD i default).stop] ++ fdp),
       (insert i visited ∪ fdu.toFinset) ∪ bdu.toFinset,
       [i] ++ fdu ++ bdu) := by
    unfold chainFrom
    rw [hF2, heqB, heqF]
    simp
  rw [hcf]
  have hbdu_ne_i : ∀ x ∈ bdu, x ≠ i := by
    intro x hx hxi
    subst hxi
    exact (hfreshB x hx).1
      (Finset.mem_union_left _ (Finset.mem_insert_self x visited))
  have hfdu_ne_i : ∀ x ∈ fdu, x ≠ i := by
    intro x hx hxi
    subst hxi
    exact (hfreshF x hx).1 (Finset.mem_insert_self x visited)
  have hdisjFB : ∀ x ∈ bdu, x ∉ fdu := by
    intro x hx hxf
    exact (hfreshB x hx).1
      (Finset.mem_union_right _ (List.mem_toFinset.mpr hxf))
  refine ⟨?_, ?_, ?_, ?_, ?_, ?_, ?_⟩
  · ext x
    simp only [Finset.mem_union, Finset.mem_insert, List.mem_toFinset,
      List.mem_append, List.mem_cons, List.mem_singleton, List.not_mem_nil,
      or_false, List.cons_append]
    tauto
  · simp only [List.cons_append, List.nil_append, List.nodup_cons,
      List.mem_append, List.nodup_append]
    refine ⟨?_, hndF, hndB, ?_⟩
    · intro h
      rcases h with h | h
      · exact hfdu_ne_i i h rfl
      · exact hbdu_ne_i i h rfl
    · intro a ha hb
      exact hdisjFB a hb ha
  · intro x hx
    simp only [List.cons_append, List.nil_append, List.mem_cons,
      List.mem_append] at hx
    rcases hx with rfl | hx | hx
    · exact ⟨hiv, hi⟩
    · obtain ⟨hv, hn⟩ := hfreshF x hx
      exact ⟨fun hc => hv (Finset.mem_insert_of_mem hc), hn⟩
    · obtain ⟨hv, hn⟩ := hfreshB x hx
      exact ⟨fun hc => hv (Finset.mem_union_left _ (Finset.mem_insert_of_mem hc)), hn⟩
  · simp
  · simp only [List.length_append, List.length_cons, List.length_singleton,
      List.length_nil]
    omega
  · intro j hj
    simp only [List.cons_append, List.nil_append, List.mem_cons,
      List.mem_append] at hj
    have hmem_chain : ∀ q : Point,
        q ∈ [(lines.getD i default).start, (lines.getD i default).stop] ++ fdp →
        q ∈ bdp ++ ([(lines.getD i default).start,
          (lines.getD i default).stop] ++ fdp) := by
      intro q hq
      exact List.mem_append.mpr (Or.inr hq)
    rcases hj with rfl | hj | hj
    · constructor
      · exact hmem_chain _ (by simp)
      · exact hmem_chain _ (by simp)
    · obtain ⟨h1, h2⟩ := hcovF j hj
      exact ⟨hmem_chain _ h1, hmem_chain _ h2⟩
    · obtain ⟨h1, h2⟩ := hcovB j hj
      constructor
      · rcases h1 with h | h
        · rw [List.append_nil] at h
          exact List.mem_append.mpr (Or.inl h)
        · rw [h]
          exact hmem_chain _ (by simp)
      · rcases h2 with h | h
        · rw [List.append_nil] at h
          exact List.mem_append.mpr (Or.inl h)
        · rw [h]
          exact hmem_chain _ (by simp)
  · exact ⟨bdp, [(lines.getD i default).start, (lines.getD i default).stop] ++ fdp,
      rfl, rfl⟩

theorem walkForward_visited_mono (lines : List Entity) :
    ∀ (fuel : ℕ) (current : Point) (visited : Finset ℕ)
      (pts : List Point) (used : List ℕ),
    visited ⊆ (walkForward lines fuel current visited pts used).2.1 := by
  intro fuel
  induction fuel with
  | zero => intro current visited pts used; rw [walkForward]
  | succ f ih =>
      intro current visited pts used
      cases hfind : (lineAdj lines current).find? (fun j => decide (j ∉ visited)) with
      | none =>
          rw [walkForward, hfind]
      | some j =>
          rw [walkForward, hfind]
          exact Finset.Subset.trans (Finset.subset_insert j visited) (ih _ _ _ _)

theorem walkBackward_visited_mono (lines : List Entity) :
    ∀ (fuel : ℕ) (current : Point) (visited : Finset ℕ)
      (pre : List Point) (used : List ℕ),
    visited ⊆ (walkBackward lines fuel current visited pre used).2.1 := by
  intro fuel
  induction fuel with
  | zero => intro current visited pre used; rw [walkBackward]
  | succ f ih =>
      intro current visited pre used
      cases hfind : (lineAdj lines current).find? (fun j => decide (j ∉ visited)) with
      | none =>
          rw [walkBackward, hfind]
      | some j =>
          rw [walkBackward, hfind]
          exact Finset.Subset.trans (Finset.subset_insert j visited) (ih _ _ _ _)

theorem chainFrom_insert_subset (lines : List Entity) (i : ℕ)
    (visited : Finset ℕ) :
    insert i visited ⊆ (chainFrom lines i visited).2.1 := by
  unfold chainFrom
  dsimp only
  refine Finset.Subset.trans (walkForward_visited_mono lines lines.length
    (lines.getD i default).stop (insert i visited)
    [(lines.getD i default).start, (lines.getD i default).stop] []) ?_
  exact walkBackward_visited_mono lines lines.length
    (lines.getD i default).start _ [] []

theorem chainFrom_visited_mono (lines : List Entity) (i : ℕ) (visited : Finset ℕ) :
    visited ⊆ (chainFrom lines i visited).2.1 :=
  Finset.Subset.trans (Finset.subset_insert i visited)
    (chainFrom_insert_subset lines i visited)

theorem mem_chainFrom_self (lines : List Entity) (i : ℕ) (visited : Finset ℕ) :
    i ∈ (chainFrom lines i visited).2.2 := by
  unfold chainFrom
  simp

/-- C2 (amended: under the endpoint separation that unified inputs satisfy):
every polyline has at least 2 points; no line index is consumed twice
across polylines; a line index is consumed iff it is in range (no line
dropped); each polyline has exactly one more point than consumed lines
(one edge per line); every line's two endpoints appear on the polyline
that consumed it; and each polyline is a backward-walk prefix followed by
a forward chain beginning with its seed's endpoints. -/
theorem chain_lines_spec (lines : List Entity) (hsep : EndpointSep lines) :
    (∀ pl ∈ chain_lines lines, 2 ≤ pl.length) ∧
    ((chain_lines_aux lines).1.flatMap Prod.snd).Nodup ∧
    (∀ j, j ∈ (chain_lines_aux lines).1.flatMap Prod.snd ↔ j < lines.length) ∧
    (∀ e ∈ (chain_lines_aux lines).1, e.1.length = e.2.length + 1) ∧
    (∀ j, j < lines.length →
      ∃ e ∈ (chain_lines_aux lines).1, j ∈ e.2 ∧
        (lines.getD j default).start ∈ e.1 ∧ (lines.getD j default).stop ∈ e.1) ∧
    (∀ e ∈ (chain_lines_aux lines).1, ∃ pre ch r, r ∈ e.2 ∧ e.1 = pre ++ ch ∧
      ch.take 2 =
        [(lines.getD r default).start, (lines.getD r default).stop]) := by
  have hP := foldl_invariant
    (fun (st : List (List Point × List ℕ) × Finset ℕ) i =>
      if i ∈ st.2 then st
      else (st.1 ++ [((chainFrom lines i st.2).1, (chainFrom lines i st.2).2.2)],
            (chainFrom lines i st.2).2.1))
    (fun st =>
      (∀ e ∈ st.1, e.1.length = e.2.length + 1) ∧
      (∀ e ∈ st.1, ∀ j ∈ e.2, j < lines.length ∧
        (lines.getD j default).start ∈ e.1 ∧ (lines.getD j default).stop ∈ e.1) ∧
      (∀ e ∈ st.1, ∃ pre ch r, r ∈ e.2 ∧ e.1 = pre ++ ch ∧
        ch.take 2 = [(lines.getD r default).start, (lines.getD r default).stop]) ∧
      (∀ x, x ∈ st.2 ↔ x ∈ st.1.flatMap Prod.snd) ∧
      (st.1.flatMap Prod.snd).Nodup)
    (List.range lines.length) ([], ∅)
    ⟨by simp, by simp, by simp, by simp, by simp⟩
    (by
      intro st i hi hPst
      obtain ⟨h1, h2, h3, h4, h5⟩ := hPst
      have hin : i < lines.length := List.mem_range.mp hi
      by_cases hiv : i ∈ st.2
      · simp only [if_pos hiv]
        exact ⟨h1, h2, h3, h4, h5⟩
      · simp only [if_neg hiv]
        obtain ⟨hvis, hnd, hfresh, hself, hlen, hcov, hstruct⟩ :=
          chainFrom_spec lines hsep i hin st.2 hiv
        refine ⟨?_, ?_, ?_, ?_, ?_⟩
        · intro e he
          rcases List.mem_append.mp he with he | he
          · exact h1 e he
          · rw [List.mem_singleton] at he
            subst he
            exact hlen
        · intro e he
          rcases List.mem_append.mp he with he | he
          · exact h2 e he
          · rw [List.mem_singleton] at he
            subst he
            intro j hj
            exact ⟨(hfresh j hj).2, hcov j hj⟩
        · intro e he
          rcases List.mem_append.mp he with he | he
          · exact h3 e he
          · rw [List.mem_singleton] at he
            subst he
            obtain ⟨pre, ch, hpl, htake⟩ := hstruct
            exact ⟨pre, ch, i, hself, hpl, htake⟩
        · intro x
          rw [hvis]
          simp only [List.flatMap_append, List.flatMap_cons, List.flatMap_nil,
            List.append_nil, List.mem_append, Finset.mem_union,
            List.mem_toFinset]
          rw [h4 x]
        · rw [List.flatMap_append]
          rw [List.nodup_append]
          refine ⟨h5, by simpa using hnd, ?_⟩
          intro a ha hb
          simp only [List.flatMap_cons, List.flatMap_nil, List.append_nil] at hb
          exact (hfresh a hb).1 ((h4 a).mpr ha))
  have hcov := foldl_establish
    (fun (st : List (List Point × List ℕ) × Finset ℕ) i =>
      if i ∈ st.2 then st
      else (st.1 ++ [((chainFrom lines i st.2).1, (chainFrom lines i st.2).2.2)],
            (chainFrom lines i st.2).2.1))
    (fun i st => i ∈ st.2)
    (by
      intro st a
      by_cases ha : a ∈ st.2
      · simp only [if_pos ha]
        exact ha
      · simp only [if_neg ha]
        exact chainFrom_insert_subset lines a st.2
          (Finset.mem_insert_self a st.2))
    (by
      intro st a b hmem
      by_cases hbm : b ∈ st.2
      · simp only [if_pos hbm]
        exact hmem
      · simp only [if_neg hbm]
        exact chainFrom_visited_mono lines b st.2 hmem)
    (List.range lines.length) ([], ∅)
  obtain ⟨h1, h2, h3, h4, h5⟩ := hP
  unfold chain_lines chain_lines_aux
  refine ⟨?_, h5, ?_, h1, ?_, h3⟩
  · intro pl hpl
    rcases List.mem_map.mp hpl with ⟨e, he, rfl⟩
    have hlen := h1 e he
    obtain ⟨pre, ch, r, hr, _, _⟩ := h3 e he
    have hpos : 1 ≤ e.2.length := List.length_pos.mpr (List.ne_nil_of_mem hr)
    omega
  · intro j
    constructor
    · intro hj
      rcases List.mem_flatMap.mp hj with ⟨e, he, hje⟩
      exact (h2 e he j hje).1
    · intro hj
      exact (h4 j).mp (hcov j (List.mem_range.mpr hj))
  · intro j hj
    have hjf := (h4 j).mp (hcov j (List.mem_range.mpr hj))
    rcases List.mem_flatMap.mp hjf with ⟨e, he, hje⟩
    obtain ⟨hn, hs, ht⟩ := h2 e he j hje
    exact ⟨e, he, hje, hs, ht⟩

/-- Two lines sharing the endpoint (1,0) exactly, all endpoint values
pairwise either equal or far apart. -/
def sepLines : List Entity :=
  [⟨(0, 0), (1, 0), 0, .line⟩, ⟨(1, 0), (2, 0), 1, .line⟩]

/-- Witness for C2 on the separated two-line input. -/
theorem chain_lines_spec_witness :
    ((chain_lines_aux sepLines).1.flatMap Prod.snd).Nodup :=
  (chain_lines_spec sepLines (by
    intro p hp q hq
    simp only [sepLines, allPts, List.flatMap_cons, List.flatMap_nil,
      List.append_nil, List.mem_cons, List.not_mem_nil, or_false,
      List.mem_append] at hp hq
    rcases hp with (rfl | rfl) | rfl | rfl <;>
      rcases hq with (rfl | rfl) | rfl | rfl <;>
      norm_num [sqDist, Prod.ext_iff])).2.1

/-- Two lines exactly sharing (1,0); the second line's start lies within
10⁻¹² of (1,0) but differs from it. -/
def closeLines : List Entity :=
  [⟨(0, 0), (1, 0), 0, .line⟩, ⟨(1 + 1 / 10 ^ 13, 0), (1, 0), 1, .line⟩]

/-- C2 counterexample: on `closeLines` the chainer emits the single
polyline [(0,0),(1,0),(1,0)], which never references the second line's
start endpoint (1 + 10⁻¹³, 0) — the claim's "output polylines collectively
reference both endpoints of every input line" fails as stated for
arbitrary inputs. -/
theorem chain_lines_dropped_endpoint :
    chain_lines closeLines = [[(0, 0), (1, 0), (1, 0)]] ∧
    (closeLines.getD 1 default).start = (1 + 1 / 10 ^ 13, 0) ∧
    ((1 + 1 / 10 ^ 13 : ℚ), (0 : ℚ)) ∉
      ([(0, 0), (1, 0), (1, 0)] : List Point) := by
  refine ⟨?_, rfl, ?_⟩
  · norm_num [chain_lines, chain_lines_aux, chainFrom, walkForward,
      walkBackward, lineAdj, other_end, sqDist, closeLines, List.range_succ,
      List.find?, Prod.ext_iff]
  · norm_num [Prod.ext_iff]
